import Mathlib

/-!
Verification development for the inefice core (`src/index.js`): the
mutation-to-message translation and subscription-routing engine.

The embedding models:
  * JS values (`JSVal`) as they appear in the root object table;
  * the sejr-based codec configured at the top of `index.js`
    (`serialize`/`deserialize`): booleans, numbers, strings and objects
    pass through; any other value (functions, `undefined`) is described
    as the distinguished `undefined` type, which realizes back to
    `undefined`;
  * `MapOfLists` as an association list from strings to lists, with the
    same methods (`removeAll`, `set`, `with` — here `withKey` since
    `with` is a Lean keyword, and the `with(k).push(x)` idiom as `push`);
  * `SubscriberState` and the change-translation table `changeTypes`,
    over an abstract client-handle type `Client`.  `transport.id` is
    modeled by a function `tid : Client → String`.  Where the source
    uses a client handle directly as a property key of a plain JS object
    (the `disconnect` handler at line 141 and `clearSubscribers` at
    lines 180–182), JavaScript coerces the handle to a string; that
    coercion is modeled by a second function `ckey : Client → String`.
    For a transport whose handles are their own ids (e.g. string
    handles) `tid` and `ckey` coincide; concrete evaluations below use
    that most favorable instance.
  * the event loop (`data.observe` handler, `link`, `unlink`,
    transport `disconnect`) as a step function producing the list of
    `transport.send` calls it performs.
-/

namespace Inefice

/-- JS values stored in the root object table.  `fn` stands for any value
whose `typeof` is none of boolean/number/string/object (e.g. a function):
the codec's `clientType` maps those to the `undefined` type.  `null` and
floating-point specials are not needed by any claim and are omitted. -/
inductive JSVal where
  | str (s : String)
  | num (n : Int)
  | bool (b : Bool)
  | undefined
  | fn
  | arr (elems : List JSVal)
  | obj (fields : List (String × JSVal))

/-- Wire values produced by the codec.  `marker` is the distinguished
"unrepresentable" description (sejr type `undefined`), which realizes back
to `undefined`. -/
inductive WireVal where
  | str (s : String)
  | num (n : Int)
  | bool (b : Bool)
  | marker
  | arr (elems : List WireVal)
  | obj (fields : List (String × WireVal))

mutual

/-- Models `serialize` (`sejr.describe` with the clientType of `index.js` lines
2–24): booleans, numbers, strings pass through, objects recurse, and any
other value — `undefined` itself or a function — becomes the
`undefined`-type description `marker`. -/
def serialize : JSVal → WireVal
  | .str s => .str s
  | .num n => .num n
  | .bool b => .bool b
  | .undefined => .marker
  | .fn => .marker
  | .arr xs => .arr (serializeList xs)
  | .obj fs => .obj (serializeFields fs)

/-- Codec on a list of values (elements of a JS array). -/
def serializeList : List JSVal → List WireVal
  | [] => []
  | x :: xs => serialize x :: serializeList xs

/-- Codec on the fields of a JS object. -/
def serializeFields : List (String × JSVal) → List (String × WireVal)
  | [] => []
  | (k, v) :: fs => (k, serialize v) :: serializeFields fs

end

mutual

/-- Models `deserialize` (`sejr.realize`): the `undefined` marker realizes to
`undefined` (its `realize.fromUndefined` returns nothing); everything
else round-trips. -/
def deserialize : WireVal → JSVal
  | .str s => .str s
  | .num n => .num n
  | .bool b => .bool b
  | .marker => .undefined
  | .arr xs => .arr (deserializeList xs)
  | .obj fs => .obj (deserializeFields fs)

/-- Realize a list of wire values. -/
def deserializeList : List WireVal → List JSVal
  | [] => []
  | x :: xs => deserialize x :: deserializeList xs

/-- Realize the fields of a wire object. -/
def deserializeFields : List (String × WireVal) → List (String × JSVal)
  | [] => []
  | (k, v) :: fs => (k, deserialize v) :: deserializeFields fs

end

/-- Property access on a JS object's field list: the value of the first
(unique) matching key, `undefined` when absent.  Also used for the root
object table itself (`data[key]`). -/
def objGet : List (String × JSVal) → String → JSVal
  | [], _ => .undefined
  | e :: rest, k => if e.1 = k then e.2 else objGet rest k

/-- One segment of a change-record path: a string field name or an array
index. -/
inductive Seg where
  | fld (s : String)
  | idx (n : Nat)
deriving DecidableEq

/-- JS member access `cursor[segment]`.  A numeric segment applied to an
object is coerced to a string property name, as JS does; access on a
non-container evaluates to `undefined` here (in JS access on `undefined`
throws, but no store-emitted record walks through an undefined base). -/
def segGet : JSVal → Seg → JSVal
  | .obj fs, .fld s => objGet fs s
  | .obj fs, .idx n => objGet fs (toString n)
  | .arr xs, .idx n => xs.getD n .undefined
  | _, _ => .undefined

/-- Models `withPath(d, path)` (`index.js` lines 77–86): walk the path from the
live root table.  The guard `typeof segment !== undefined` in the source
compares a string to the value `undefined` and is therefore always true,
so every segment is applied. -/
def withPath (d : List (String × JSVal)) (path : List Seg) : JSVal :=
  path.foldl segGet (JSVal.obj d)

/-- Extracts `change.path[0]`, the root object name.  The root table is an object,
so the first segment of a store-emitted record is its string key (a
numeric segment would be coerced, as in `segGet`); the empty case cannot
arise for store records, whose paths are non-empty. -/
def headKey : List Seg → String
  | [] => ""
  | .fld s :: _ => s
  | .idx n :: _ => toString n

/-- The change types emitted by the observable store. -/
inductive ChangeType where
  | insert
  | update
  | delete
  | shuffle
  | reverse
deriving DecidableEq

/-- A change record as consumed by the observer callback: its `type`, its
`path`, and its `value` (the new value; `undefined` when the record
carries none, matching the JS `typeof c.value !== 'undefined'` test). -/
structure Change where
  type : ChangeType
  path : List Seg
  value : JSVal

/-- An outbound protocol message, with optional `path` and `value` fields
exactly as the source builds them. -/
structure Message where
  op : String
  key : String
  path : Option (List Seg) := none
  value : Option WireVal := none

/-- Models `updateFromPath` (`index.js` lines 89–96): whole-subtree resnapshot
read from the live table. -/
def updateFromPath (c : Change) (data : List (String × JSVal)) : Message :=
  { op := "update"
    key := headKey c.path
    path := some (c.path.drop 1)
    value := some (serialize (withPath data c.path)) }

/-- Models `insertStyleUpdate(op)` (`index.js` lines 98–112): the `value` field
is present exactly when the record's value is defined. -/
def insertStyleUpdate (op : String) (c : Change) : Message :=
  { op := op
    key := headKey c.path
    path := some (c.path.drop 1)
    value := match c.value with
      | .undefined => none
      | v => some (serialize v) }

/-- The `changeTypes` dispatch table (`index.js` lines 114–131) as a
closed match. -/
def buildMessage (c : Change) (data : List (String × JSVal)) : Message :=
  match c.type with
  | .insert => insertStyleUpdate "insert" c
  | .update => insertStyleUpdate "update" c
  | .delete => insertStyleUpdate "delete" c
  | .shuffle => updateFromPath c data
  | .reverse => updateFromPath c data

/-- The op string `buildMessage` gives each change type. -/
def opName : ChangeType → String
  | .insert => "insert"
  | .update => "update"
  | .delete => "delete"
  | .shuffle => "update"
  | .reverse => "update"

/-- Models `MapOfLists` (`index.js` lines 197–226): a plain JS object used as a
map from strings to arrays, modeled as an association list in property
insertion order. -/
abbrev MapOfLists (α : Type) := List (String × List α)

/-- Whether the map has an entry for `k` (`typeof this.map[key] !==
'undefined'`). -/
def molHas : MapOfLists α → String → Bool
  | [], _ => false
  | e :: rest, k => e.1 == k || molHas rest k

/-- The list stored under `k`, `[]` when absent (read-only lookup, used
to state properties). -/
def mListOf : MapOfLists α → String → List α
  | [], _ => []
  | e :: rest, k => if e.1 = k then e.2 else mListOf rest k

/-- Models `removeAll(key)`, i.e. `delete this.map[key]` — drop the entry for the
key (keys are unique, so dropping every match is the same thing). -/
def MapOfLists.removeAll : MapOfLists α → String → MapOfLists α
  | [], _ => []
  | e :: rest, k =>
    if e.1 = k then MapOfLists.removeAll rest k
    else e :: MapOfLists.removeAll rest k

/-- Replace the list stored under an existing key, in place. -/
def molUpdate : MapOfLists α → String → List α → MapOfLists α
  | [], _, _ => []
  | e :: rest, k, v =>
    if e.1 = k then (k, v) :: molUpdate rest k v
    else e :: molUpdate rest k v

/-- Overwrite the entry for `k` (plain `this.map[key] = value`
assignment): update in place when present, append when absent. -/
def MapOfLists.setRaw (m : MapOfLists α) (k : String) (v : List α) :
    MapOfLists α :=
  if molHas m k then molUpdate m k v else m ++ [(k, v)]

/-- Models `set(key, value)` (`index.js` lines 206–217): an empty array deletes
the entry, otherwise the entry is overwritten. -/
def MapOfLists.set (m : MapOfLists α) (k : String) (v : List α) :
    MapOfLists α :=
  if v.isEmpty then MapOfLists.removeAll m k else MapOfLists.setRaw m k v

/-- Models `with(key)` (`index.js` lines 219–225): returns the array under
`key`, creating — and retaining — an empty one when absent.  The result
pairs the returned array with the possibly-mutated map. -/
def MapOfLists.withKey (m : MapOfLists α) (k : String) :
    List α × MapOfLists α :=
  if molHas m k then (mListOf m k, m) else ([], m ++ [(k, [])])

/-- The `with(key).push(x)` idiom (`index.js` lines 159–160): `with`
materializes the entry and `push` appends to that same array in place,
i.e. the entry for `key` becomes its old list (empty when absent) with
`x` appended. -/
def MapOfLists.push (m : MapOfLists α) (k : String) (x : α) :
    MapOfLists α :=
  let p := MapOfLists.withKey m k
  MapOfLists.setRaw p.2 k (p.1 ++ [x])

/-- The whole engine state: the root object table `data` plus the two
`SubscriberState` maps.  `keyToSubscribedClients` stores client handles;
`clientsToSubscriptions` is keyed by strings (client ids at `link`,
coerced handles elsewhere) and stores root keys. -/
structure EngineState (Client : Type) where
  data : List (String × JSVal)
  keyToSubscribedClients : MapOfLists Client
  clientsToSubscriptions : MapOfLists String

/-- The effect of `unlinkSilently` on `keyToSubscribedClients` (`index.js`
lines 146–150): filter the client out of the key's list and `set` the
result back (which deletes the entry when it empties). -/
def mapUnlinkSilently [DecidableEq Client] (m : MapOfLists Client)
    (client : Client) (key : String) : MapOfLists Client :=
  let p := MapOfLists.withKey m key
  MapOfLists.set p.2 key (p.1.filter (fun e => e ≠ client))

namespace SubscriberState

variable {Client : Type} [DecidableEq Client]

/-- Models `unlinkSilently(client, key)`: touches only
`keyToSubscribedClients`. -/
def unlinkSilently (S : EngineState Client) (client : Client)
    (key : String) : EngineState Client :=
  { S with keyToSubscribedClients :=
      mapUnlinkSilently S.keyToSubscribedClients client key }

/-- Models `sendObjectUpdate(rootObjectName, message)` (`index.js` lines
152–156): one `transport.send` per subscriber of the key, in list order.
The `with` lookup retains an empty entry when the key had none. -/
def sendObjectUpdate (S : EngineState Client) (rootObjectName : String)
    (message : Message) : EngineState Client × List (Client × Message) :=
  let p := MapOfLists.withKey S.keyToSubscribedClients rootObjectName
  ({ S with keyToSubscribedClients := p.2 },
   p.1.map (fun client => (client, message)))

/-- Models `SubscriberState.link(client, key)` (`index.js` lines 158–167):
push the handle under the key, push the key under `transport.id(client)`,
then send the `init` snapshot. -/
def link (tid : Client → String) (S : EngineState Client)
    (client : Client) (key : String) :
    EngineState Client × List (Client × Message) :=
  ({ S with
      keyToSubscribedClients :=
        MapOfLists.push S.keyToSubscribedClients key client
      clientsToSubscriptions :=
        MapOfLists.push S.clientsToSubscriptions (tid client) key },
   [(client,
     { op := "init", key := key,
       value := some (serialize (objGet S.data key)) })])

/-- Models `SubscriberState.unlink(client, key)` (`index.js` lines 169–176):
silent removal followed unconditionally by a `closed` message. -/
def unlink (S : EngineState Client) (client : Client) (key : String) :
    EngineState Client × List (Client × Message) :=
  (unlinkSilently S client key,
   [(client, { op := "closed", key := key })])

/-- Models `clearSubscribers(key)` (`index.js` lines 178–186): for each handle
subscribed to the key, rewrite the `clientsToSubscriptions` entry under
the coerced handle (`ckey`) with the key filtered out; then drop the
key's own entry. -/
def clearSubscribers (ckey : Client → String) (S : EngineState Client)
    (key : String) : EngineState Client :=
  let p := MapOfLists.withKey S.keyToSubscribedClients key
  { S with
    keyToSubscribedClients := MapOfLists.removeAll p.2 key
    clientsToSubscriptions :=
      p.1.foldl (fun m client =>
        let q := MapOfLists.withKey m (ckey client)
        MapOfLists.set q.2 (ckey client)
          (q.1.filter (fun e => e ≠ key))) S.clientsToSubscriptions }

/-- The `transport.on('disconnect')` handler (`index.js` lines 140–143):
look up the handle's subscription list under its coerced key and
`unlinkSilently` each key in it.  No message is sent. -/
def disconnect (ckey : Client → String) (S : EngineState Client)
    (client : Client) : EngineState Client :=
  let p := MapOfLists.withKey S.clientsToSubscriptions (ckey client)
  { S with
    clientsToSubscriptions := p.2
    keyToSubscribedClients :=
      p.1.foldl (fun m key => mapUnlinkSilently m client key)
        S.keyToSubscribedClients }

end SubscriberState

variable {Client : Type}

/-- The message one change record produces (`index.js` lines 33–48): a
root-level delete becomes `finalize`, anything else goes through the
change translator. -/
def changeMessage (change : Change) (data : List (String × JSVal)) :
    Message :=
  if change.type = ChangeType.delete ∧ change.path.length = 1 then
    { op := "finalize", key := headKey change.path }
  else buildMessage change data

/-- One iteration of the `data.observe` handler (`index.js` lines
30–55): build the message, broadcast it, and if it was a `finalize`
clear the key's subscribers. -/
def processChange [DecidableEq Client] (ckey : Client → String)
    (S : EngineState Client) (change : Change) :
    EngineState Client × List (Client × Message) :=
  let rootObjectName := headKey change.path
  let message := changeMessage change S.data
  let r := SubscriberState.sendObjectUpdate S rootObjectName message
  (if message.op = "finalize" then
      SubscriberState.clearSubscribers ckey r.1 rootObjectName
    else r.1,
   r.2)

/-- Models `changes.forEach(...)`: process a batch of change records in
emission order, concatenating the sends. -/
def processChanges [DecidableEq Client] (ckey : Client → String) :
    EngineState Client → List Change →
    EngineState Client × List (Client × Message)
  | S, [] => (S, [])
  | S, change :: rest =>
    let r := processChange ckey S change
    let r2 := processChanges ckey r.1 rest
    (r2.1, r.2 ++ r2.2)

/-- The public `link(client, key)` (`index.js` lines 60–66): throw
`NoSuchKey` when `typeof data[key] === 'undefined'`, otherwise delegate
to `SubscriberState.link`. -/
def linkCall [DecidableEq Client] (tid : Client → String)
    (S : EngineState Client) (client : Client) (key : String) :
    Except String (EngineState Client × List (Client × Message)) :=
  match objGet S.data key with
  | .undefined => .error ("No such key: " ++ key)
  | _ => .ok (SubscriberState.link tid S client key)

/-- External events driving the engine.  A `mutate` event stands for one
logical mutation of the observable table: the table is already in its
post-mutation state `newData` when the synchronously-emitted records are
processed. -/
inductive Event (Client : Type) where
  | mutate (newData : List (String × JSVal)) (records : List Change)
  | link (client : Client) (key : String)
  | unlink (client : Client) (key : String)
  | disconnect (client : Client)

/-- One engine step.  A failed `link` propagates its error to the caller
having changed nothing and sent nothing. -/
def step [DecidableEq Client] (tid ckey : Client → String)
    (S : EngineState Client) :
    Event Client → EngineState Client × List (Client × Message)
  | .mutate newData records =>
    processChanges ckey { S with data := newData } records
  | .link client key =>
    match linkCall tid S client key with
    | .ok r => r
    | .error _ => (S, [])
  | .unlink client key => SubscriberState.unlink S client key
  | .disconnect client => (SubscriberState.disconnect ckey S client, [])

/-- Run a sequence of events, concatenating the sends in order. -/
def run [DecidableEq Client] (tid ckey : Client → String) :
    EngineState Client → List (Event Client) →
    EngineState Client × List (Client × Message)
  | S, [] => (S, [])
  | S, e :: evs =>
    let r := step tid ckey S e
    let r2 := run tid ckey r.1 evs
    (r2.1, r.2 ++ r2.2)

/-- The state at module construction: empty table, empty maps. -/
def initState (Client : Type) : EngineState Client :=
  { data := [], keyToSubscribedClients := [],
    clientsToSubscriptions := [] }

/-- The messages a given client receives for a given key, in order. -/
def msgsFor [DecidableEq Client] (client : Client) (key : String)
    (out : List (Client × Message)) : List Message :=
  (out.filter (fun p => p.1 = client ∧ p.2.key = key)).map (fun p => p.2)

/-- True for events that are not a `link` or `unlink` call by the
given client for the given key: mutations, other clients' calls, the
client's calls about other keys, and disconnects. -/
def noTouch [DecidableEq Client] (c : Client) (K : String) :
    Event Client → Bool
  | .link c' k => !(decide (c' = c) && decide (k = K))
  | .unlink c' k => !(decide (c' = c) && decide (k = K))
  | .mutate _ _ => true
  | .disconnect _ => true

/-- Whether an event is a `link` call. -/
def Event.isLinkEv : Event Client → Bool
  | .link _ _ => true
  | _ => false

/-- Whether an event is a mutation of the observable table. -/
def Event.isMutateEv : Event Client → Bool
  | .mutate _ _ => true
  | _ => false

/-!  ## Basic facts about `MapOfLists`  -/

theorem mListOf_eq_nil_of_not_has {α : Type} (m : MapOfLists α)
    (k : String) (h : ¬molHas m k) : mListOf m k = [] := by
  induction m with
  | nil => rfl
  | cons e rest ih =>
    simp only [molHas, Bool.or_eq_true, beq_iff_eq, not_or] at h
    rw [mListOf, if_neg h.1]
    exact ih h.2

theorem mListOf_append {α : Type} (m m2 : MapOfLists α) (k : String) :
    mListOf (m ++ m2) k
      = if molHas m k then mListOf m k else mListOf m2 k := by
  induction m with
  | nil => simp [molHas, mListOf]
  | cons e rest ih =>
    by_cases hk : e.1 = k
    · simp [mListOf, molHas, hk]
    · simp [mListOf, molHas, hk, ih]

theorem mListOf_removeAll {α : Type} (m : MapOfLists α) (k K : String) :
    mListOf (MapOfLists.removeAll m k) K
      = if K = k then [] else mListOf m K := by
  induction m with
  | nil => simp [MapOfLists.removeAll, mListOf]
  | cons e rest ih =>
    by_cases hk : e.1 = k
    · rw [MapOfLists.removeAll, if_pos hk, ih]
      by_cases hK : K = k
      · simp [hK]
      · have heK : ¬(e.1 = K) := by
          rw [hk]; exact fun hc => hK hc.symm
        simp [hK, mListOf, heK]
    · rw [MapOfLists.removeAll, if_neg hk]
      by_cases heK : e.1 = K
      · have hKk : ¬(K = k) := fun hc => hk (by rw [heK, hc])
        simp [mListOf, heK, hKk]
      · simp [mListOf, heK, ih]

theorem molHas_removeAll {α : Type} (m : MapOfLists α) (k : String) :
    molHas (MapOfLists.removeAll m k) k = false := by
  induction m with
  | nil => rfl
  | cons e rest ih =>
    by_cases hk : e.1 = k
    · rw [MapOfLists.removeAll, if_pos hk]
      exact ih
    · rw [MapOfLists.removeAll, if_neg hk, molHas]
      simp [hk, ih]

theorem mListOf_molUpdate {α : Type} (m : MapOfLists α) (k K : String)
    (v : List α) :
    mListOf (molUpdate m k v) K
      = if K = k ∧ molHas m k then v else mListOf m K := by
  induction m with
  | nil => simp [molHas, molUpdate, mListOf]
  | cons e rest ih =>
    by_cases hek : e.1 = k
    · rw [molUpdate, if_pos hek]
      by_cases hK : K = k
      · subst hK
        simp [mListOf, molHas, hek]
      · have hkK : ¬(k = K) := fun hc => hK hc.symm
        have heK : ¬(e.1 = K) := by rw [hek]; exact hkK
        rw [mListOf, if_neg hkK, ih, mListOf, if_neg heK]
        simp [hK]
    · rw [molUpdate, if_neg hek]
      by_cases heK : e.1 = K
      · have hKk : ¬(K = k) := fun hc => hek (by rw [heK, hc])
        simp [mListOf, heK, hKk]
      · rw [mListOf, if_neg heK, ih, mListOf, if_neg heK]
        simp [molHas, hek]

theorem mListOf_setRaw {α : Type} (m : MapOfLists α) (k K : String)
    (v : List α) :
    mListOf (MapOfLists.setRaw m k v) K
      = if K = k then v else mListOf m K := by
  unfold MapOfLists.setRaw
  by_cases hhas : molHas m k
  · rw [if_pos hhas, mListOf_molUpdate]
    by_cases hK : K = k <;> simp [hK, hhas]
  · rw [if_neg hhas, mListOf_append]
    by_cases hK : K = k
    · subst hK
      simp [hhas, mListOf, mListOf_eq_nil_of_not_has m K hhas]
    · have hkK : ¬(k = K) := fun hc => hK hc.symm
      by_cases h2 : molHas m K
      · simp [h2, hK]
      · simp [h2, mListOf_eq_nil_of_not_has m K h2, mListOf, hK, hkK]

theorem mListOf_set {α : Type} (m : MapOfLists α) (k K : String)
    (v : List α) :
    mListOf (MapOfLists.set m k v) K
      = if K = k then v else mListOf m K := by
  unfold MapOfLists.set
  by_cases hv : v.isEmpty
  · have hv' : v = [] := by
      cases v with
      | nil => rfl
      | cons a l => simp [List.isEmpty] at hv
    subst hv'
    simp [mListOf_removeAll]
  · simp [hv, mListOf_setRaw]

theorem withKey_fst {α : Type} (m : MapOfLists α) (k : String) :
    (MapOfLists.withKey m k).1 = mListOf m k := by
  unfold MapOfLists.withKey
  by_cases hhas : molHas m k
  · simp [hhas]
  · simp [hhas, mListOf_eq_nil_of_not_has m k hhas]

theorem mListOf_withKey_snd {α : Type} (m : MapOfLists α) (k K : String) :
    mListOf (MapOfLists.withKey m k).2 K = mListOf m K := by
  unfold MapOfLists.withKey
  by_cases hhas : molHas m k
  · simp [hhas]
  · rw [if_neg hhas]
    simp only
    rw [mListOf_append]
    by_cases h2 : molHas m K
    · simp [h2]
    · simp only [h2, if_neg]
      rw [mListOf_eq_nil_of_not_has m K h2, mListOf]
      by_cases hK : k = K <;> simp [hK, mListOf]

theorem mListOf_push {α : Type} (m : MapOfLists α) (k K : String)
    (x : α) :
    mListOf (MapOfLists.push m k x) K
      = if K = k then mListOf m K ++ [x] else mListOf m K := by
  unfold MapOfLists.push
  rw [mListOf_setRaw, withKey_fst]
  by_cases hK : K = k
  · subst hK; simp
  · simp [hK, mListOf_withKey_snd]

theorem mListOf_mapUnlinkSilently {Client : Type} [DecidableEq Client]
    (m : MapOfLists Client) (c : Client) (k K : String) :
    mListOf (mapUnlinkSilently m c k) K
      = if K = k then (mListOf m k).filter (fun e => e ≠ c)
        else mListOf m K := by
  unfold mapUnlinkSilently
  rw [mListOf_set, withKey_fst]
  by_cases hK : K = k
  · simp [hK]
  · simp [hK, mListOf_withKey_snd]

/-!  ## Message bookkeeping  -/

theorem msgsFor_append [DecidableEq Client] (c : Client) (K : String)
    (out1 out2 : List (Client × Message)) :
    msgsFor c K (out1 ++ out2)
      = msgsFor c K out1 ++ msgsFor c K out2 := by
  simp [msgsFor, List.filter_append]

theorem filter_self_of_not_mem {α : Type} [DecidableEq α] (l : List α)
    (c : α) (h : c ∉ l) : l.filter (fun x => x = c) = [] := by
  induction l with
  | nil => rfl
  | cons a l ih =>
    have hac : ¬(a = c) := fun hc => h (hc ▸ List.mem_cons_self a l)
    have htl := ih (fun hc => h (List.mem_cons_of_mem a hc))
    rw [List.filter_cons]
    simpa [hac] using htl

theorem filter_self_of_count_one {α : Type} [DecidableEq α] (l : List α)
    (c : α) (h : l.count c = 1) : l.filter (fun x => x = c) = [c] := by
  induction l with
  | nil => simp at h
  | cons a l ih =>
    by_cases hac : a = c
    · subst hac
      rw [List.count_cons_self] at h
      have h0 : l.count a = 0 := by omega
      have hnm : a ∉ l := List.count_eq_zero.mp h0
      rw [List.filter_cons]
      simpa using filter_self_of_not_mem l a hnm
    · have hca : c ≠ a := fun hc => hac hc.symm
      rw [List.count_cons_of_ne hca] at h
      rw [List.filter_cons]
      simpa [hac] using ih h

theorem msgsFor_broadcast_eq [DecidableEq Client] (c : Client)
    (K : String) (l : List Client) (msg : Message) (hkey : msg.key = K) :
    msgsFor c K (l.map (fun cl => (cl, msg)))
      = (l.filter (fun x => x = c)).map (fun _ => msg) := by
  induction l with
  | nil => rfl
  | cons a l ih =>
    by_cases hac : a = c
    · simp [msgsFor, List.filter_cons, hac, hkey] at ih ⊢
      exact ih
    · simp [msgsFor, List.filter_cons, hac, hkey] at ih ⊢
      exact ih

theorem msgsFor_broadcast_nil [DecidableEq Client] (c : Client)
    (K : String) (l : List Client) (msg : Message)
    (h : msg.key ≠ K ∨ c ∉ l) :
    msgsFor c K (l.map (fun cl => (cl, msg))) = [] := by
  by_cases hkey : msg.key = K
  · rcases h with h | h
    · exact absurd hkey h
    · rw [msgsFor_broadcast_eq c K l msg hkey,
        filter_self_of_not_mem l c h]
      rfl
  · induction l with
    | nil => rfl
    | cons a l _ =>
      simp [msgsFor, List.filter_cons, hkey]

theorem broadcast_filter_length [DecidableEq Client] (c : Client)
    (l : List Client) (msg : Message) :
    ((l.map (fun cl => (cl, msg))).filter (fun p => p.1 = c)).length
      = l.count c := by
  induction l with
  | nil => rfl
  | cons a l ih =>
    by_cases hac : a = c
    · subst hac
      rw [List.count_cons_self]
      simp [List.filter_cons] at ih ⊢
      exact ih
    · have hca : c ≠ a := fun hc => hac hc.symm
      rw [List.count_cons_of_ne hca]
      simp [List.filter_cons, hac] at ih ⊢
      exact ih

/-!  ## How one change record is processed  -/

theorem buildMessage_key (ch : Change) (d : List (String × JSVal)) :
    (buildMessage ch d).key = headKey ch.path := by
  cases ch with
  | mk t p v => cases t <;> rfl

theorem changeMessage_key (ch : Change) (d : List (String × JSVal)) :
    (changeMessage ch d).key = headKey ch.path := by
  unfold changeMessage
  by_cases h : ch.type = ChangeType.delete ∧ ch.path.length = 1
  · simp [h]
  · simp [h, buildMessage_key]

theorem processChange_snd [DecidableEq Client] (ckey : Client → String)
    (S : EngineState Client) (ch : Change) :
    (processChange ckey S ch).2
      = (mListOf S.keyToSubscribedClients (headKey ch.path)).map
          (fun cl => (cl, changeMessage ch S.data)) := by
  unfold processChange SubscriberState.sendObjectUpdate
  simp [withKey_fst]

theorem processChange_k2c_cases [DecidableEq Client]
    (ckey : Client → String) (S : EngineState Client) (ch : Change)
    (K : String) :
    mListOf (processChange ckey S ch).1.keyToSubscribedClients K
        = mListOf S.keyToSubscribedClients K ∨
      mListOf (processChange ckey S ch).1.keyToSubscribedClients K
        = [] := by
  unfold processChange SubscriberState.sendObjectUpdate
    SubscriberState.clearSubscribers
  by_cases hfin : (changeMessage ch S.data).op = "finalize"
  · simp only [hfin, if_true]
    by_cases hK : K = headKey ch.path
    · right
      simp [mListOf_removeAll, hK]
    · left
      simp [mListOf_removeAll, hK, mListOf_withKey_snd]
  · left
    simp [hfin, mListOf_withKey_snd]

theorem processChange_not_sub [DecidableEq Client]
    (ckey : Client → String) (S : EngineState Client) (ch : Change)
    (c : Client) (K : String)
    (h : c ∉ mListOf S.keyToSubscribedClients K) :
    msgsFor c K (processChange ckey S ch).2 = [] := by
  rw [processChange_snd]
  by_cases hroot : headKey ch.path = K
  · exact msgsFor_broadcast_nil c K _ _ (Or.inr (hroot ▸ h))
  · exact msgsFor_broadcast_nil c K _ _
      (Or.inl (by rw [changeMessage_key]; exact hroot))

theorem processChange_not_sub_preserved [DecidableEq Client]
    (ckey : Client → String) (S : EngineState Client) (ch : Change)
    (c : Client) (K : String)
    (h : c ∉ mListOf S.keyToSubscribedClients K) :
    c ∉ mListOf (processChange ckey S ch).1.keyToSubscribedClients K := by
  rcases processChange_k2c_cases ckey S ch K with hc | hc
  · rw [hc]; exact h
  · rw [hc]; exact List.not_mem_nil c

theorem processChanges_not_sub [DecidableEq Client]
    (ckey : Client → String) (recs : List Change)
    (S : EngineState Client) (c : Client) (K : String)
    (h : c ∉ mListOf S.keyToSubscribedClients K) :
    msgsFor c K (processChanges ckey S recs).2 = [] ∧
      c ∉ mListOf
        (processChanges ckey S recs).1.keyToSubscribedClients K := by
  induction recs generalizing S with
  | nil => exact ⟨rfl, h⟩
  | cons ch rest ih =>
    have h1 := processChange_not_sub ckey S ch c K h
    have h2 := processChange_not_sub_preserved ckey S ch c K h
    have h3 := ih (processChange ckey S ch).1 h2
    refine ⟨?_, h3.2⟩
    rw [processChanges, msgsFor_append, h1, h3.1]
    rfl

/-!  ## Trace-level invariants  -/

theorem foldl_mapUnlink_not_mem [DecidableEq Client] (c c' : Client)
    (K : String) (ks : List String) (m : MapOfLists Client)
    (h : c ∉ mListOf m K) :
    c ∉ mListOf
      (ks.foldl (fun acc k => mapUnlinkSilently acc c' k) m) K := by
  induction ks generalizing m with
  | nil => exact h
  | cons k0 ks ih =>
    apply ih
    rw [mListOf_mapUnlinkSilently]
    by_cases hK : K = k0
    · subst hK
      rw [if_pos rfl]
      intro hc
      exact h (List.mem_of_mem_filter hc)
    · rw [if_neg hK]
      exact h

theorem foldl_mapUnlink_clears [DecidableEq Client] (c : Client)
    (ks : List String) (m : MapOfLists Client) (K : String)
    (h : K ∈ ks ∨ c ∉ mListOf m K) :
    c ∉ mListOf
      (ks.foldl (fun acc k => mapUnlinkSilently acc c k) m) K := by
  induction ks generalizing m with
  | nil =>
    rcases h with h | h
    · exact absurd h (List.not_mem_nil K)
    · exact h
  | cons k0 ks ih =>
    apply ih
    rcases h with h | h
    · rcases List.mem_cons.mp h with h0 | h0
      · right
        subst h0
        rw [mListOf_mapUnlinkSilently, if_pos rfl]
        intro hc
        have hmem := List.mem_filter.mp hc
        simp at hmem
      · left
        exact h0
    · right
      rw [mListOf_mapUnlinkSilently]
      by_cases hK : K = k0
      · subst hK
        rw [if_pos rfl]
        intro hc
        exact h (List.mem_of_mem_filter hc)
      · rw [if_neg hK]
        exact h

theorem linkCall_cases [DecidableEq Client] (tid : Client → String)
    (S : EngineState Client) (c : Client) (k : String) :
    (objGet S.data k = JSVal.undefined ∧
      linkCall tid S c k = Except.error ("No such key: " ++ k)) ∨
    (objGet S.data k ≠ JSVal.undefined ∧
      linkCall tid S c k = Except.ok (SubscriberState.link tid S c k)) := by
  unfold linkCall
  cases h : objGet S.data k
  case undefined => exact Or.inl ⟨rfl, rfl⟩
  all_goals exact Or.inr ⟨by simp, rfl⟩

theorem step_not_sub [DecidableEq Client] (tid ckey : Client → String)
    (S : EngineState Client) (e : Event Client) (c : Client) (K : String)
    (h : c ∉ mListOf S.keyToSubscribedClients K)
    (he : noTouch c K e = true) :
    msgsFor c K (step tid ckey S e).2 = [] ∧
      c ∉ mListOf (step tid ckey S e).1.keyToSubscribedClients K := by
  cases e with
  | mutate D recs =>
    exact processChanges_not_sub ckey recs { S with data := D } c K h
  | link c' k =>
    have hne : ¬(c' = c ∧ k = K) := by
      have hor : ¬c' = c ∨ ¬k = K := by simpa [noTouch] using he
      intro hc
      rcases hor with hor | hor
      · exact hor hc.1
      · exact hor hc.2
    rcases linkCall_cases tid S c' k with ⟨_, herr⟩ | ⟨_, hok⟩
    · have hstep : step tid ckey S (Event.link c' k) = (S, []) := by
        simp [step, herr]
      rw [hstep]
      exact ⟨rfl, h⟩
    · have hstep : step tid ckey S (Event.link c' k)
          = SubscriberState.link tid S c' k := by
        simp [step, hok]
      rw [hstep]
      constructor
      · simp [SubscriberState.link, msgsFor, hne]
      · show c ∉ mListOf
          (MapOfLists.push S.keyToSubscribedClients k c') K
        rw [mListOf_push]
        by_cases hK : K = k
        · rw [if_pos hK]
          intro hc
          rcases List.mem_append.mp hc with hc | hc
          · exact h hc
          · have hcc : c = c' := List.mem_singleton.mp hc
            exact hne ⟨hcc.symm ▸ rfl, hK.symm⟩
        · rw [if_neg hK]
          exact h
  | unlink c' k =>
    have hne : ¬(c' = c ∧ k = K) := by
      have hor : ¬c' = c ∨ ¬k = K := by simpa [noTouch] using he
      intro hc
      rcases hor with hor | hor
      · exact hor hc.1
      · exact hor hc.2
    constructor
    · show msgsFor c K [(c', { op := "closed", key := k })] = []
      simp [msgsFor, hne]
    · show c ∉ mListOf
        (mapUnlinkSilently S.keyToSubscribedClients c' k) K
      rw [mListOf_mapUnlinkSilently]
      by_cases hK : K = k
      · rw [if_pos hK]
        intro hc
        exact h (hK ▸ List.mem_of_mem_filter hc)
      · rw [if_neg hK]
        exact h
  | disconnect c' =>
    refine ⟨rfl, ?_⟩
    exact foldl_mapUnlink_not_mem c c' K _ _ h

theorem run_not_sub [DecidableEq Client] (tid ckey : Client → String)
    (evs : List (Event Client)) (S : EngineState Client) (c : Client)
    (K : String) (h : c ∉ mListOf S.keyToSubscribedClients K)
    (hall : evs.all (noTouch c K) = true) :
    msgsFor c K (run tid ckey S evs).2 = [] ∧
      c ∉ mListOf (run tid ckey S evs).1.keyToSubscribedClients K := by
  induction evs generalizing S with
  | nil => exact ⟨rfl, h⟩
  | cons e evs ih =>
    rw [List.all_cons, Bool.and_eq_true] at hall
    have h1 := step_not_sub tid ckey S e c K h hall.1
    have h2 := ih (step tid ckey S e).1 h1.2 hall.2
    refine ⟨?_, h2.2⟩
    rw [run, msgsFor_append, h1.1, h2.1]
    rfl

theorem all_noTouch_of_all_isMutateEv [DecidableEq Client] (c : Client)
    (K : String) (evs : List (Event Client))
    (h : evs.all Event.isMutateEv = true) :
    evs.all (noTouch c K) = true := by
  induction evs with
  | nil => rfl
  | cons e evs ih =>
    rw [List.all_cons, Bool.and_eq_true] at h ⊢
    refine ⟨?_, ih h.2⟩
    cases e with
    | mutate D recs => rfl
    | link c' k => exact absurd h.1 (by simp [Event.isLinkEv, Event.isMutateEv])
    | unlink c' k => exact absurd h.1 (by simp [Event.isMutateEv])
    | disconnect c' => rfl

theorem processChange_finalize_clears [DecidableEq Client]
    (ckey : Client → String) (S : EngineState Client) (ch : Change)
    (hfin : (changeMessage ch S.data).op = "finalize") :
    mListOf (processChange ckey S ch).1.keyToSubscribedClients
      (headKey ch.path) = [] := by
  unfold processChange SubscriberState.sendObjectUpdate
    SubscriberState.clearSubscribers
  simp [hfin, mListOf_removeAll]

/-- The mutual-consistency property of the two registry maps, as the
spec states it (a client is in a key's subscriber list iff the key is
in that client's subscription list, clients being identified by their
transport ids). -/
def mutuallyConsistent {Client : Type} [DecidableEq Client]
    (tid : Client → String) (S : EngineState Client) : Prop :=
  ∀ (k : String) (c : Client),
    c ∈ mListOf S.keyToSubscribedClients k ↔
      k ∈ mListOf S.clientsToSubscriptions (tid c)

/-- A state with `{ foo: 'v' }` in the table and client `c1` registered
once for `foo` in both maps, used by several witnesses. -/
def subbedState : EngineState String :=
  ⟨[("foo", JSVal.str "v")], [("foo", ["c1"])], [("c1", ["foo"])]⟩

/-!  ## The claims  -/

/-- C3: for every client `c` and key `K`, if `K` has no defined value in
the root object table then `link(c, K)` fails with a NoSuchKey error,
`c` is not registered, no message is sent to `c`, and no state is
changed (the step leaves the state exactly as it was and sends
nothing). -/
theorem c3_link_missing_key_fails {Client : Type} [DecidableEq Client]
    (tid ckey : Client → String) (S : EngineState Client) (c : Client)
    (K : String) (h : objGet S.data K = JSVal.undefined) :
    linkCall tid S c K = Except.error ("No such key: " ++ K) ∧
      step tid ckey S (Event.link c K) = (S, []) := by
  have herr : linkCall tid S c K
      = Except.error ("No such key: " ++ K) := by
    unfold linkCall
    rw [h]
  exact ⟨herr, by simp [step, herr]⟩

/-- Witness for C3 at the initial (empty-table) state. -/
theorem c3_witness :
    objGet (initState String).data "foo" = JSVal.undefined ∧
      linkCall (fun s => s) (initState String) "c1" "foo"
        = Except.error ("No such key: " ++ "foo") := by
  refine ⟨rfl, ?_⟩
  exact (c3_link_missing_key_fails (fun s => s) (fun s => s)
    (initState String) "c1" "foo" rfl).1

/-- C4: for every client `c` and key `K` with a defined value,
`link(c, K)` registers `c` for `K` in both registry maps and sends `c`
exactly one `init` message carrying `K` and the codec-encoded current
value at `K`; in any continuation of the trace that `init` comes before
every later message.  (The codec encodes unrepresentable members as the
marker, which decodes to `undefined`.) -/
theorem c4_link_sends_init {Client : Type} [DecidableEq Client]
    (tid ckey : Client → String) (S : EngineState Client) (c : Client)
    (K : String) (h : objGet S.data K ≠ JSVal.undefined) :
    ∃ S' : EngineState Client,
      linkCall tid S c K = Except.ok (S',
        [(c, { op := "init", key := K,
               value := some (serialize (objGet S.data K)) })]) ∧
      c ∈ mListOf S'.keyToSubscribedClients K ∧
      K ∈ mListOf S'.clientsToSubscriptions (tid c) ∧
      deserialize WireVal.marker = JSVal.undefined ∧
      ∀ evs : List (Event Client),
        (run tid ckey S (Event.link c K :: evs)).2
          = (c, { op := "init", key := K,
                  value := some (serialize (objGet S.data K)) })
              :: (run tid ckey S' evs).2 := by
  rcases linkCall_cases tid S c K with ⟨hu, _⟩ | ⟨_, hok⟩
  · exact absurd hu h
  · refine ⟨(SubscriberState.link tid S c K).1, ?_, ?_, ?_, rfl, ?_⟩
    · rw [hok]
      rfl
    · show c ∈ mListOf
        (MapOfLists.push S.keyToSubscribedClients K c) K
      rw [mListOf_push, if_pos rfl]
      exact List.mem_append_right _ (List.mem_singleton.mpr rfl)
    · show K ∈ mListOf
        (MapOfLists.push S.clientsToSubscriptions (tid c) K) (tid c)
      rw [mListOf_push, if_pos rfl]
      exact List.mem_append_right _ (List.mem_singleton.mpr rfl)
    · intro evs
      simp [run, step, hok, SubscriberState.link]

/-- The table `{ foo: 'abc' }` with an empty registry, for the C4
witness. -/
def stateFooAbc : EngineState String :=
  ⟨[("foo", JSVal.str "abc")], [], []⟩

/-- Witness for C4 on the table `{ foo: 'abc' }`. -/
theorem c4_witness :
    objGet stateFooAbc.data "foo" ≠ JSVal.undefined ∧
      ∃ S' : EngineState String,
        linkCall (fun s => s) stateFooAbc "c1" "foo"
          = Except.ok (S',
              [("c1",
                 { op := "init", key := "foo",
                   value := some (serialize
                     (objGet stateFooAbc.data "foo")) })]) ∧
        "c1" ∈ mListOf S'.keyToSubscribedClients "foo" ∧
        "foo" ∈ mListOf S'.clientsToSubscriptions
          ((fun s : String => s) "c1") ∧
        deserialize WireVal.marker = JSVal.undefined ∧
        ∀ evs : List (Event String),
          (run (fun s => s) (fun s => s) stateFooAbc
              (Event.link "c1" "foo" :: evs)).2
            = ("c1",
                 { op := "init", key := "foo",
                   value := some (serialize
                     (objGet stateFooAbc.data "foo")) })
                :: (run (fun s => s) (fun s => s) S' evs).2 :=
  ⟨(fun hc => nomatch hc),
   c4_link_sends_init (fun s => s) (fun s => s) stateFooAbc "c1" "foo"
     (fun hc => nomatch hc)⟩

/-- C6: for every change record of type `shuffle` or `reverse`, the
change translator emits exactly one `update` message with
`key = path[0]`, `path = path[1:]` and `value` the codec-encoded
current value read at `record.path` from the live table; the observer
broadcasts exactly that one message per subscriber. -/
theorem c6_shuffle_reverse_resnapshot {Client : Type}
    [DecidableEq Client] (ckey : Client → String)
    (S : EngineState Client) (ch : Change) (K : String)
    (rest : List Seg) (hpath : ch.path = Seg.fld K :: rest)
    (htype : ch.type = ChangeType.shuffle ∨
      ch.type = ChangeType.reverse) :
    buildMessage ch S.data
        = { op := "update", key := K, path := some rest,
            value := some (serialize (withPath S.data ch.path)) } ∧
      (processChange ckey S ch).2
        = (mListOf S.keyToSubscribedClients K).map
            (fun cl => (cl, buildMessage ch S.data)) := by
  obtain ⟨t, p, v⟩ := ch
  simp only at hpath htype ⊢
  subst hpath
  have hmsg : buildMessage ⟨t, Seg.fld K :: rest, v⟩ S.data
      = { op := "update", key := K, path := some rest,
          value := some (serialize
            (withPath S.data (Seg.fld K :: rest))) } := by
    rcases htype with ht | ht <;> subst ht <;> rfl
  refine ⟨hmsg, ?_⟩
  rw [processChange_snd]
  have hcm : changeMessage ⟨t, Seg.fld K :: rest, v⟩ S.data
      = buildMessage ⟨t, Seg.fld K :: rest, v⟩ S.data := by
    unfold changeMessage
    rcases htype with ht | ht <;> subst ht <;> simp
  rw [hcm]
  rfl

/-- Witness for C6 on the spec's example: `{ foo: { bar: [a, b, c] } }`
with a `shuffle` record at `['foo', 'bar']`. -/
theorem c6_witness :
    buildMessage
        ⟨ChangeType.shuffle, [Seg.fld "foo", Seg.fld "bar"], JSVal.undefined⟩
        [("foo", JSVal.obj [("bar", JSVal.arr
          [JSVal.str "a", JSVal.str "b", JSVal.str "c"])])]
      = { op := "update", key := "foo", path := some [Seg.fld "bar"],
          value := some (serialize (withPath
            [("foo", JSVal.obj [("bar", JSVal.arr
              [JSVal.str "a", JSVal.str "b", JSVal.str "c"])])]
            [Seg.fld "foo", Seg.fld "bar"])) } :=
  (c6_shuffle_reverse_resnapshot (fun s : String => s)
    ⟨[("foo", JSVal.obj [("bar", JSVal.arr
      [JSVal.str "a", JSVal.str "b", JSVal.str "c"])])], [], []⟩
    ⟨ChangeType.shuffle, [Seg.fld "foo", Seg.fld "bar"], JSVal.undefined⟩
    "foo" [Seg.fld "bar"] rfl (Or.inl rfl)).1

/-- Counterexample to C7 as stated: a `delete` record whose `value`
field is defined produces a `delete` message that carries a `value`
(the translator treats `delete` exactly like `insert`/`update`), so the
value field is not "never present on a delete message". -/
theorem c7_counterexample :
    (buildMessage ⟨ChangeType.delete, [Seg.fld "foo", Seg.fld "bar"],
        JSVal.str "x"⟩ []).op = "delete" ∧
      (buildMessage ⟨ChangeType.delete, [Seg.fld "foo", Seg.fld "bar"],
        JSVal.str "x"⟩ []).value = some (WireVal.str "x") :=
  ⟨rfl, rfl⟩

/-- C7 (amended): for every change record of type `insert`, `update` or
`delete` (path length > 1 for delete), the translated message has `op`
equal to the record type, `key = path[0]` and `path = path[1:]`; the
`value` field is the codec-encoded record value exactly when that value
is defined — for `delete` as well, although store-emitted delete
records carry no value, so their messages have none. -/
theorem c7_translator_delta_shape (d : List (String × JSVal))
    (ch : Change) (K : String) (rest : List Seg)
    (hpath : ch.path = Seg.fld K :: rest)
    (htype : ch.type = ChangeType.insert ∨
      ch.type = ChangeType.update ∨ ch.type = ChangeType.delete)
    (hdel : ch.type = ChangeType.delete → rest ≠ []) :
    (buildMessage ch d).op = opName ch.type ∧
      (buildMessage ch d).key = K ∧
      (buildMessage ch d).path = some rest ∧
      (ch.value = JSVal.undefined → (buildMessage ch d).value = none) ∧
      (ch.value ≠ JSVal.undefined →
        (buildMessage ch d).value = some (serialize ch.value)) := by
  clear hdel
  obtain ⟨t, p, v⟩ := ch
  simp only at hpath htype ⊢
  subst hpath
  rcases htype with ht | ht | ht <;> subst ht <;>
    exact ⟨rfl, rfl, rfl,
      fun hv => by subst hv; rfl,
      fun hv => by
        cases v with
        | undefined => exact absurd rfl hv
        | str s => rfl
        | num n => rfl
        | bool b => rfl
        | fn => rfl
        | arr xs => rfl
        | obj fs => rfl⟩

/-- Witness for C7 (amended) on an `insert` record with a defined
value. -/
theorem c7_witness :
    (buildMessage ⟨ChangeType.insert, [Seg.fld "foo", Seg.fld "a"],
        JSVal.str "z"⟩ []).op = opName ChangeType.insert ∧
      (buildMessage ⟨ChangeType.insert, [Seg.fld "foo", Seg.fld "a"],
        JSVal.str "z"⟩ []).key = "foo" ∧
      (buildMessage ⟨ChangeType.insert, [Seg.fld "foo", Seg.fld "a"],
        JSVal.str "z"⟩ []).path = some [Seg.fld "a"] ∧
      (JSVal.str "z" = JSVal.undefined →
        (buildMessage ⟨ChangeType.insert, [Seg.fld "foo", Seg.fld "a"],
          JSVal.str "z"⟩ []).value = none) ∧
      (JSVal.str "z" ≠ JSVal.undefined →
        (buildMessage ⟨ChangeType.insert, [Seg.fld "foo", Seg.fld "a"],
          JSVal.str "z"⟩ []).value
            = some (serialize (JSVal.str "z"))) :=
  c7_translator_delta_shape []
    ⟨ChangeType.insert, [Seg.fld "foo", Seg.fld "a"], JSVal.str "z"⟩
    "foo" [Seg.fld "a"] rfl (Or.inl rfl) (fun ht => nomatch ht)

/-- Counterexample to C9 as stated: broadcasting a change for a key with
no subscribers goes through `with`, which creates and retains an empty
entry — afterwards the key is present in `keyToSubscribedClients` with
an empty list. -/
theorem c9_counterexample :
    molHas ((processChange (fun s : String => s)
        ⟨[("foo", JSVal.str "x")], [], []⟩
        ⟨ChangeType.update, [Seg.fld "foo"],
          JSVal.str "y"⟩).1.keyToSubscribedClients) "foo" = true ∧
      mListOf ((processChange (fun s : String => s)
        ⟨[("foo", JSVal.str "x")], [], []⟩
        ⟨ChangeType.update, [Seg.fld "foo"],
          JSVal.str "y"⟩).1.keyToSubscribedClients) "foo" = [] :=
  ⟨rfl, rfl⟩

/-- C9 (amended): `set` with an empty list removes the map entry, and
removing the last client registered for a key removes that key's entry
entirely; but `with` on an absent key inserts and retains an empty
list, so lookups (and hence broadcasts to keys with no subscribers)
do leave empty entries behind. -/
theorem c9_empty_list_pruning {Client : Type} [DecidableEq Client]
    (m : MapOfLists Client) (c : Client) (k : String) :
    MapOfLists.set m k ([] : List Client)
        = MapOfLists.removeAll m k ∧
      ((mListOf m k).filter (fun e => e ≠ c) = [] →
        molHas (mapUnlinkSilently m c k) k = false) ∧
      (molHas m k = false →
        (MapOfLists.withKey m k).2 = m ++ [(k, [])]) := by
  refine ⟨rfl, ?_, ?_⟩
  · intro hf
    have hdefined : mapUnlinkSilently m c k
        = MapOfLists.set (MapOfLists.withKey m k).2 k
            ((MapOfLists.withKey m k).1.filter (fun e => e ≠ c)) := rfl
    rw [hdefined, withKey_fst, hf]
    exact molHas_removeAll _ k
  · intro hh
    unfold MapOfLists.withKey
    simp [hh]

/-- Witness for C9 (amended): removing the sole subscriber deletes the
entry; a `with` lookup on an absent key retains an empty entry. -/
theorem c9_witness :
    molHas (mapUnlinkSilently [("k", ["c"])] "c" "k") "k" = false ∧
      (MapOfLists.withKey ([] : MapOfLists String) "k").2
        = [("k", [])] := by
  constructor
  · exact (c9_empty_list_pruning [("k", ["c"])] "c" "k").2.1 rfl
  · exact (c9_empty_list_pruning ([] : MapOfLists String) "c" "k").2.2
      rfl

/-- Table `{foo: 'v'}`, client `c1` linked twice, then root deletion of
`foo` — the trace refuting C1's "exactly one finalize". -/
def traceDoubleLink : List (Event String) :=
  [Event.mutate [("foo", JSVal.str "v")] [],
   Event.link "c1" "foo", Event.link "c1" "foo",
   Event.mutate []
     [⟨ChangeType.delete, [Seg.fld "foo"], JSVal.undefined⟩]]

/-- Counterexample to C1 as stated: a client registered twice receives
TWO finalize messages for the root deletion, and afterwards an `unlink`
call for the finalized key still sends it a `closed` message for that
key even though it never called `link` again. -/
theorem c1_counterexample :
    ((run (fun s => s) (fun s => s) (initState String)
        traceDoubleLink).2.filter
      (fun p => p.1 == "c1" && p.2.op == "finalize")).length = 2 ∧
      (step (fun s => s) (fun s => s)
          (run (fun s => s) (fun s => s) (initState String)
            traceDoubleLink).1
          (Event.unlink "c1" "foo")).2
        = [("c1", { op := "closed", key := "foo" })] := by
  exact ⟨by decide, rfl⟩

/-- C1 (amended): a client registered exactly once for `K` receives
exactly one message for `K` — the `finalize` — when the root value at
`K` is deleted at the top level, and thereafter receives zero further
messages for `K`, even if `K` is redefined, as long as it makes no
further `link` or `unlink` call for `K` (per registration: a doubly
registered client receives one finalize per registration, and an
`unlink` call still elicits a `closed`). -/
theorem c1_finalize_per_registration {Client : Type}
    [DecidableEq Client] (tid ckey : Client → String)
    (S : EngineState Client) (c : Client) (K : String)
    (D : List (String × JSVal))
    (hcount : (mListOf S.keyToSubscribedClients K).count c = 1) :
    msgsFor c K (step tid ckey S (Event.mutate D
        [⟨ChangeType.delete, [Seg.fld K], JSVal.undefined⟩])).2
      = [{ op := "finalize", key := K }] ∧
    ∀ evs : List (Event Client), evs.all (noTouch c K) = true →
      msgsFor c K (run tid ckey (step tid ckey S (Event.mutate D
          [⟨ChangeType.delete, [Seg.fld K], JSVal.undefined⟩])).1 evs).2
        = [] := by
  have hstepeq : step tid ckey S (Event.mutate D
      [⟨ChangeType.delete, [Seg.fld K], JSVal.undefined⟩])
      = ((processChange ckey { S with data := D }
            ⟨ChangeType.delete, [Seg.fld K], JSVal.undefined⟩).1,
         (processChange ckey { S with data := D }
            ⟨ChangeType.delete, [Seg.fld K], JSVal.undefined⟩).2 ++ []) :=
    rfl
  have hmsg : changeMessage
      ⟨ChangeType.delete, [Seg.fld K], JSVal.undefined⟩ D
      = { op := "finalize", key := K } := rfl
  constructor
  · rw [hstepeq]
    simp only [List.append_nil]
    rw [processChange_snd]
    have hbk : msgsFor c K
        ((mListOf ({ S with data := D } :
            EngineState Client).keyToSubscribedClients
          (headKey [Seg.fld K])).map (fun cl =>
            (cl, changeMessage
              ⟨ChangeType.delete, [Seg.fld K], JSVal.undefined⟩
              ({ S with data := D } :
                EngineState Client).data)))
        = ((mListOf S.keyToSubscribedClients K).filter
            (fun x => x = c)).map
            (fun _ => { op := "finalize", key := K }) := by
      rw [show ({ S with data := D } :
          EngineState Client).keyToSubscribedClients
          = S.keyToSubscribedClients from rfl]
      rw [show headKey [Seg.fld K] = K from rfl]
      rw [show changeMessage
          ⟨ChangeType.delete, [Seg.fld K], JSVal.undefined⟩
          ({ S with data := D } : EngineState Client).data
          = { op := "finalize", key := K } from rfl]
      exact msgsFor_broadcast_eq c K _ _ rfl
    rw [hbk, filter_self_of_count_one _ c hcount]
    rfl
  · intro evs hall
    have hnot :
        c ∉ mListOf
          ((step tid ckey S (Event.mutate D
            [⟨ChangeType.delete, [Seg.fld K],
              JSVal.undefined⟩])).1).keyToSubscribedClients K := by
      rw [hstepeq]
      have hclear := processChange_finalize_clears ckey
        { S with data := D }
        ⟨ChangeType.delete, [Seg.fld K], JSVal.undefined⟩ rfl
      rw [show headKey [Seg.fld K] = K from rfl] at hclear
      rw [hclear]
      exact List.not_mem_nil c
    exact (run_not_sub tid ckey evs _ c K hnot hall).1

/-- Witness for C1 (amended) at `subbedState`, where `c1` is registered
exactly once: the root deletion of `foo` delivers exactly the finalize,
and a later mutation redefining `foo` delivers nothing. -/
theorem c1_witness :
    msgsFor "c1" "foo" (step (fun s => s) (fun s => s) subbedState
        (Event.mutate []
          [⟨ChangeType.delete, [Seg.fld "foo"], JSVal.undefined⟩])).2
      = [{ op := "finalize", key := "foo" }] ∧
      msgsFor "c1" "foo" (run (fun s => s) (fun s => s)
        (step (fun s => s) (fun s => s) subbedState
          (Event.mutate []
            [⟨ChangeType.delete, [Seg.fld "foo"], JSVal.undefined⟩])).1
        [Event.mutate [("foo", JSVal.str "w")]
          [⟨ChangeType.insert, [Seg.fld "foo"], JSVal.str "w"⟩]]).2
      = [] := by
  have H := c1_finalize_per_registration (fun s : String => s)
    (fun s => s) subbedState "c1" "foo" [] (by decide)
  exact ⟨H.1, H.2 _ rfl⟩

/-- Table `{foo: 'v'}`, link then unlink — the trace refuting C2's mutual
consistency. -/
def traceLinkUnlink : List (Event String) :=
  [Event.mutate [("foo", JSVal.str "v")] [],
   Event.link "c1" "foo", Event.unlink "c1" "foo"]

/-- Counterexample to C2 as stated: after `unlink(c1, foo)` the key
`foo` still appears under `c1` in `clientsToSubscriptions` although
`c1` is no longer in `foo`'s subscriber list — the maps are not
mutually consistent after every operation. -/
theorem c2_counterexample :
    "foo" ∈ mListOf (run (fun s => s) (fun s => s) (initState String)
        traceLinkUnlink).1.clientsToSubscriptions "c1" ∧
      "c1" ∉ mListOf (run (fun s => s) (fun s => s) (initState String)
        traceLinkUnlink).1.keyToSubscribedClients "foo" := by
  decide

/-- C2 (amended): mutual consistency of the two maps is preserved by
every `link` call (given injective transport ids); `unlink` and
disconnect, however, remove the client only from
`keyToSubscribedClients` and leave the key under the client in
`clientsToSubscriptions`, so consistency fails after them. -/
theorem c2_link_consistency {Client : Type} [DecidableEq Client]
    (tid ckey : Client → String) (hinj : Function.Injective tid)
    (S : EngineState Client) (hS : mutuallyConsistent tid S)
    (evs : List (Event Client)) (hall : evs.all Event.isLinkEv = true) :
    mutuallyConsistent tid (run tid ckey S evs).1 := by
  induction evs generalizing S with
  | nil => exact hS
  | cons e evs ih =>
    rw [List.all_cons, Bool.and_eq_true] at hall
    have hstep : mutuallyConsistent tid (step tid ckey S e).1 := by
      cases e with
      | link c k =>
        rcases linkCall_cases tid S c k with ⟨_, herr⟩ | ⟨_, hok⟩
        · have heq : step tid ckey S (Event.link c k) = (S, []) := by
            simp [step, herr]
          rw [heq]
          exact hS
        · have heq : step tid ckey S (Event.link c k)
              = SubscriberState.link tid S c k := by
            simp [step, hok]
          rw [heq]
          intro K c'
          show c' ∈ mListOf
              (MapOfLists.push S.keyToSubscribedClients k c) K ↔
            K ∈ mListOf
              (MapOfLists.push S.clientsToSubscriptions (tid c) k)
              (tid c')
          rw [mListOf_push, mListOf_push]
          by_cases hK : K = k
          · rw [if_pos hK]
            by_cases htc : tid c' = tid c
            · have hcc : c' = c := hinj htc
              subst hcc
              rw [if_pos htc]
              subst hK
              simp
            · rw [if_neg htc]
              have hcc : ¬(c' = c) := fun hc => htc (hc ▸ rfl)
              rw [List.mem_append, List.mem_singleton]
              subst hK
              simp [hcc]
              exact hS K c'
          · rw [if_neg hK]
            by_cases htc : tid c' = tid c
            · rw [if_pos htc, List.mem_append, List.mem_singleton]
              simp [hK]
              exact hS K c'
            · rw [if_neg htc]
              exact hS K c'
      | mutate D recs =>
        exact absurd hall.1 (by simp [Event.isLinkEv])
      | unlink c k =>
        exact absurd hall.1 (by simp [Event.isLinkEv])
      | disconnect c =>
        exact absurd hall.1 (by simp [Event.isLinkEv])
    exact ih (step tid ckey S e).1 hstep hall.2

/-- Witness for C2 (amended): one successful link on `{foo: 'abc'}`
keeps the maps consistent (checked at `(foo, c1)`). -/
theorem c2_witness :
    ("c1" ∈ mListOf (run (fun s => s) (fun s => s) stateFooAbc
        [Event.link "c1" "foo"]).1.keyToSubscribedClients "foo") ↔
      ("foo" ∈ mListOf (run (fun s => s) (fun s => s) stateFooAbc
        [Event.link "c1" "foo"]).1.clientsToSubscriptions
        ((fun s : String => s) "c1")) := by
  have hS : mutuallyConsistent (fun s : String => s) stateFooAbc := by
    intro k c
    simp [stateFooAbc, mListOf]
  have H := c2_link_consistency (fun s : String => s) (fun s => s)
    (fun a b h => h) stateFooAbc hS [Event.link "c1" "foo"] rfl
  exact H "foo" "c1"

/-- Table `{foo: 'v'}`, link then transport disconnect — the trace refuting
C5's claim that the client disappears from both maps. -/
def traceLinkDisconnect : List (Event String) :=
  [Event.mutate [("foo", JSVal.str "v")] [],
   Event.link "c1" "foo", Event.disconnect "c1"]

/-- Counterexample to C5 as stated: after the disconnect of `c1`, the
entry `c1 → [foo]` is still present in `clientsToSubscriptions` (only
`keyToSubscribedClients` is cleaned), so `c1` has not been removed from
both maps. -/
theorem c5_counterexample :
    mListOf (run (fun s => s) (fun s => s) (initState String)
        traceLinkDisconnect).1.clientsToSubscriptions "c1"
      = ["foo"] ∧
      (run (fun s => s) (fun s => s) (initState String)
        traceLinkDisconnect).1.keyToSubscribedClients = [] :=
  ⟨rfl, rfl⟩

/-- C5 (amended): a transport-reported disconnect of `c` sends no
message to anyone and removes `c` from the subscriber list of every
key (provided every key `c` subscribes to is recorded under `c` in
`clientsToSubscriptions`, as `link` arranges); `c`'s own entry in
`clientsToSubscriptions` is however left in place. -/
theorem c5_disconnect_silent_removal {Client : Type}
    [DecidableEq Client] (tid ckey : Client → String)
    (S : EngineState Client) (c : Client)
    (hcov : ∀ k : String, c ∈ mListOf S.keyToSubscribedClients k →
      k ∈ mListOf S.clientsToSubscriptions (ckey c)) :
    (step tid ckey S (Event.disconnect c)).2 = [] ∧
      ∀ k : String, c ∉ mListOf
        (step tid ckey S
          (Event.disconnect c)).1.keyToSubscribedClients k := by
  refine ⟨rfl, ?_⟩
  intro k
  show c ∉ mListOf
    ((MapOfLists.withKey S.clientsToSubscriptions (ckey c)).1.foldl
      (fun m key => mapUnlinkSilently m c key)
      S.keyToSubscribedClients) k
  apply foldl_mapUnlink_clears
  rw [withKey_fst]
  by_cases hk : k ∈ mListOf S.clientsToSubscriptions (ckey c)
  · exact Or.inl hk
  · exact Or.inr (fun hc => hk (hcov k hc))

/-- Witness for C5 (amended) at `subbedState`. -/
theorem c5_witness :
    (step (fun s : String => s) (fun s => s) subbedState
        (Event.disconnect "c1")).2 = [] ∧
      "c1" ∉ mListOf (step (fun s : String => s) (fun s => s)
        subbedState
        (Event.disconnect "c1")).1.keyToSubscribedClients "foo" := by
  have hcov : ∀ k : String,
      "c1" ∈ mListOf subbedState.keyToSubscribedClients k →
        k ∈ mListOf subbedState.clientsToSubscriptions
          ((fun s : String => s) "c1") := by
    intro k hk
    have hk' : "c1" ∈ (if "foo" = k then ["c1"]
        else ([] : List String)) := hk
    split at hk'
    case isTrue hfk => subst hfk; decide
    case isFalse => exact absurd hk' (List.not_mem_nil _)
  have H := c5_disconnect_silent_removal (fun s : String => s)
    (fun s => s) subbedState "c1" hcov
  exact ⟨H.1, H.2 "foo"⟩

/-- C8: after `unlink(c, K)` of a registered client, `c` receives
exactly one `closed` message for `K`, zero further messages for `K`
from any subsequent mutation, and a later `link(c, K)` succeeds as
long as `K` has a defined value — unlink does not prevent
re-linking. -/
theorem c8_unlink_closed_and_relink {Client : Type}
    [DecidableEq Client] (tid ckey : Client → String)
    (S : EngineState Client) (c : Client) (K : String)
    (hreg : c ∈ mListOf S.keyToSubscribedClients K) :
    (step tid ckey S (Event.unlink c K)).2
        = [(c, { op := "closed", key := K })] ∧
      (∀ evs : List (Event Client), evs.all Event.isMutateEv = true →
        msgsFor c K (run tid ckey
          (step tid ckey S (Event.unlink c K)).1 evs).2 = []) ∧
      (objGet S.data K ≠ JSVal.undefined →
        ∃ r, linkCall tid (step tid ckey S (Event.unlink c K)).1 c K
          = Except.ok r) := by
  clear hreg
  have hnot : c ∉ mListOf
      (step tid ckey S
        (Event.unlink c K)).1.keyToSubscribedClients K := by
    show c ∉ mListOf
      (mapUnlinkSilently S.keyToSubscribedClients c K) K
    rw [mListOf_mapUnlinkSilently, if_pos rfl]
    intro hc
    have hcc := (List.mem_filter.mp hc).2
    simp at hcc
  refine ⟨rfl, ?_, ?_⟩
  · intro evs hall
    exact (run_not_sub tid ckey evs _ c K hnot
      (all_noTouch_of_all_isMutateEv c K evs hall)).1
  · intro hdefined
    have hdata : (step tid ckey S (Event.unlink c K)).1.data
        = S.data := rfl
    rcases linkCall_cases tid
        (step tid ckey S (Event.unlink c K)).1 c K with
      ⟨hu, _⟩ | ⟨_, hok⟩
    · rw [hdata] at hu
      exact absurd hu hdefined
    · exact ⟨_, hok⟩

/-- Witness for C8 at `subbedState`: the closed message, silence under
a later mutation of `foo`, and a successful re-link. -/
theorem c8_witness :
    "c1" ∈ mListOf subbedState.keyToSubscribedClients "foo" ∧
      (step (fun s : String => s) (fun s => s) subbedState
        (Event.unlink "c1" "foo")).2
        = [("c1", { op := "closed", key := "foo" })] ∧
      msgsFor "c1" "foo" (run (fun s : String => s) (fun s => s)
        (step (fun s : String => s) (fun s => s) subbedState
          (Event.unlink "c1" "foo")).1
        [Event.mutate [("foo", JSVal.str "w")]
          [⟨ChangeType.update, [Seg.fld "foo"], JSVal.str "w"⟩]]).2
        = [] ∧
      (∃ r, linkCall (fun s : String => s)
        (step (fun s : String => s) (fun s => s) subbedState
          (Event.unlink "c1" "foo")).1 "c1" "foo"
        = Except.ok r) := by
  have H := c8_unlink_closed_and_relink (fun s : String => s)
    (fun s => s) subbedState "c1" "foo" (by decide)
  exact ⟨by decide, H.1, H.2.1 _ rfl, H.2.2 (fun hc => nomatch hc)⟩

/-- C10: link is not idempotent — a second successful `link(c, K)` for
an already-registered client sends a second `init` message and bumps
the number of `c`'s registrations for `K` by one; and every broadcast
for a key delivers the message to `c` once per registration of `c`
under that key. -/
theorem c10_link_not_idempotent {Client : Type} [DecidableEq Client]
    (tid ckey : Client → String) (S : EngineState Client) (c : Client)
    (K : String) (hreg : c ∈ mListOf S.keyToSubscribedClients K)
    (hdefined : objGet S.data K ≠ JSVal.undefined) :
    (∃ S', linkCall tid S c K
        = Except.ok (S', [(c, { op := "init", key := K,
                                value := some (serialize
                                  (objGet S.data K)) })]) ∧
      (mListOf S'.keyToSubscribedClients K).count c
        = (mListOf S.keyToSubscribedClients K).count c + 1) ∧
    ∀ (T : EngineState Client) (ch : Change),
      ((processChange ckey T ch).2.filter (fun p => p.1 = c)).length
        = (mListOf T.keyToSubscribedClients (headKey ch.path)).count
            c := by
  clear hreg
  constructor
  · rcases linkCall_cases tid S c K with ⟨hu, _⟩ | ⟨_, hok⟩
    · exact absurd hu hdefined
    · refine ⟨(SubscriberState.link tid S c K).1, ?_, ?_⟩
      · rw [hok]
        rfl
      · show (mListOf
            (MapOfLists.push S.keyToSubscribedClients K c) K).count c
          = (mListOf S.keyToSubscribedClients K).count c + 1
        rw [mListOf_push, if_pos rfl, List.count_append]
        simp
  · intro T ch
    rw [processChange_snd]
    exact broadcast_filter_length c _ _

/-- Witness for C10 at `subbedState` (where `c1` is already registered
for `foo`): the second link's init message, the registration count
going from 1 to 2, and per-registration delivery of a broadcast. -/
theorem c10_witness :
    "c1" ∈ mListOf subbedState.keyToSubscribedClients "foo" ∧
      (∃ S', linkCall (fun s : String => s) subbedState "c1" "foo"
          = Except.ok (S', [("c1", { op := "init", key := "foo",
                                     value := some (serialize
                                       (objGet subbedState.data
                                         "foo")) })]) ∧
        (mListOf S'.keyToSubscribedClients "foo").count "c1"
          = (mListOf subbedState.keyToSubscribedClients "foo").count
              "c1" + 1) ∧
      ((processChange (fun s : String => s) subbedState
          ⟨ChangeType.update, [Seg.fld "foo"], JSVal.str "w"⟩).2.filter
        (fun p => p.1 = "c1")).length
        = (mListOf subbedState.keyToSubscribedClients
            (headKey [Seg.fld "foo"])).count "c1" := by
  have H := c10_link_not_idempotent (fun s : String => s)
    (fun s => s) subbedState "c1" "foo" (by decide)
    (fun hc => nomatch hc)
  exact ⟨by decide, H.1, H.2 subbedState _⟩

end Inefice
